import Mathlib

/-!
Shallow embedding of `src/contracts/CryptoVeilGame.sol` (CryptoVeilGame).

Encrypted 32-bit unsigned integers (`euint32`) are modelled as `Nat` with
explicit reduction modulo `2^32` exactly where the FHE library performs
wrapping arithmetic (`FHE.add`, `FHE.sub`).  Encrypted booleans (`ebool`)
are modelled as `Bool`; `FHE.select` is an oblivious multiplexer.
Randomness (`FHE.randEuint32`) is modelled by passing the drawn sample as
an explicit parameter, reduced modulo `2^32` to the euint32 range.
Player addresses are modelled as `Nat`; the two Solidity mappings
`_positions` and `_hasJoined` become function-valued fields of `GameState`.
`require(cond, msg)` failures become `Except.error` of the matching
`GameError`; a reverted call leaves the state unchanged (`applyOp`).
-/

namespace CryptoVeil

/-- `2^32`, the modulus of euint32 arithmetic. -/
def M32 : Nat := 4294967296

/-- Source constant `MIN_COORD = 1`. -/
def MIN_COORD : Nat := 1

/-- Source constant `MAX_COORD = 10`. -/
def MAX_COORD : Nat := 10

/-- Source constant `DIRECTION_MODULO = 4`. -/
def DIRECTION_MODULO : Nat := 4

/-- Reduction of an arbitrary natural to the euint32 range. -/
def wrap32 (n : Nat) : Nat := n % M32

/-- `FHE.add` on euint32: addition wrapping modulo `2^32`. -/
def add32 (a b : Nat) : Nat := (a + b) % M32

/-- `FHE.sub` on euint32: subtraction wrapping modulo `2^32`
(for `a b < 2^32` this is the two's-complement difference). -/
def sub32 (a b : Nat) : Nat := (a + (M32 - b % M32)) % M32

/-- `FHE.rem` on euint32: remainder, non-negative by construction. -/
def rem32 (a b : Nat) : Nat := a % b

/-- `FHE.eq` on euint32, yielding an (encrypted) boolean. -/
def fheEq (a b : Nat) : Bool := decide (a = b)

/-- `FHE.le` on euint32. -/
def fheLe (a b : Nat) : Bool := decide (a ≤ b)

/-- `FHE.ge` on euint32. -/
def fheGe (a b : Nat) : Bool := decide (b ≤ a)

/-- `FHE.select cond ifTrue ifFalse`: oblivious selection between two
encrypted values keyed on an encrypted boolean. -/
def fheSelect (cond : Bool) (ifTrue ifFalse : Nat) : Nat :=
  if cond then ifTrue else ifFalse

/-- `_randomCoordinate`: a random euint32 sample reduced modulo
`MAX_COORD` into `[0, MAX_COORD-1]`, then shifted by `MIN_COORD`.
The drawn sample is the explicit argument. -/
def randomCoordinate (sample : Nat) : Nat :=
  let bounded := rem32 (wrap32 sample) MAX_COORD
  add32 bounded MIN_COORD

/-- `_normalizeDirection`: reduce the raw direction code modulo 4. -/
def normalizeDirection (direction : Nat) : Nat :=
  rem32 direction DIRECTION_MODULO

/-- `_applyStep`: compute incremented, decremented and unchanged
candidates unconditionally, then choose by oblivious selection keyed on
the encrypted comparisons `current ≤ MIN_COORD` and `current ≥ MAX_COORD`. -/
def applyStep (current : Nat) (increment decrement : Bool) : Nat :=
  let one := 1
  let incremented := add32 current one
  let decremented := sub32 current one
  let atMin := fheLe current MIN_COORD
  let atMax := fheGe current MAX_COORD
  let safeIncrement := fheSelect atMax current incremented
  let safeDecrement := fheSelect atMin current decremented
  let afterIncrement := fheSelect increment safeIncrement current
  fheSelect decrement safeDecrement afterIncrement

/-- `_updateHorizontal`: left (code 2) decrements x, right (code 3)
increments x. -/
def updateHorizontal (current direction : Nat) : Nat :=
  let moveLeft := fheEq direction 2
  let moveRight := fheEq direction 3
  applyStep current moveRight moveLeft

/-- `_updateVertical`: up (code 0) increments y, down (code 1)
decrements y. -/
def updateVertical (current direction : Nat) : Nat :=
  let moveUp := fheEq direction 0
  let moveDown := fheEq direction 1
  applyStep current moveUp moveDown

/-- The position-update core of `move`: normalize the direction and apply
the per-axis step functions to the coordinate pair. -/
def movePos (p : Nat × Nat) (directionInput : Nat) : Nat × Nat :=
  let d := normalizeDirection (wrap32 directionInput)
  (updateHorizontal p.1 d, updateVertical p.2 d)

/-- The three `require` failure kinds of the contract. -/
inductive GameError
  | AlreadyJoined
  | NotJoined
  | UnknownPlayer
deriving DecidableEq, Repr

/-- Contract storage: the mappings `_positions` and `_hasJoined`,
keyed by player address (modelled as `Nat`). -/
structure GameState where
  positions : Nat → Nat × Nat
  hasJoined : Nat → Bool

/-- `joinGame`: revert with `AlreadyJoined` if the caller has joined,
otherwise store two fresh random coordinates and mark the caller joined.
The two random euint32 samples are the explicit arguments. -/
def joinGame (s : GameState) (caller sampleX sampleY : Nat) :
    Except GameError GameState :=
  if s.hasJoined caller then
    Except.error GameError.AlreadyJoined
  else
    Except.ok
      { positions := fun p =>
          if p = caller then (randomCoordinate sampleX, randomCoordinate sampleY)
          else s.positions p
        hasJoined := fun p => if p = caller then true else s.hasJoined p }

/-- `move`: revert with `NotJoined` unless the caller has joined,
otherwise update the stored pair through the position engine. -/
def move (s : GameState) (caller directionInput : Nat) :
    Except GameError GameState :=
  if s.hasJoined caller then
    Except.ok
      { positions := fun p =>
          if p = caller then movePos (s.positions caller) directionInput
          else s.positions p
        hasJoined := s.hasJoined }
  else
    Except.error GameError.NotJoined

/-- `getPlayerPosition`: revert with `UnknownPlayer` unless the queried
player has joined, otherwise return the stored encrypted pair. -/
def getPlayerPosition (s : GameState) (player : Nat) :
    Except GameError (Nat × Nat) :=
  if s.hasJoined player then Except.ok (s.positions player)
  else Except.error GameError.UnknownPlayer

/-- `boardLimits`: the constant pair `(MIN_COORD, MAX_COORD)`. -/
def boardLimits : Nat × Nat := (MIN_COORD, MAX_COORD)

/-- A state-changing call to the contract: `joinGame` (with its two
random samples) or `move` (with its raw direction input). -/
inductive GameOp
  | join (caller sampleX sampleY : Nat)
  | move (caller directionInput : Nat)

/-- Transaction semantics: a reverted call leaves the storage unchanged. -/
def applyOp (s : GameState) (op : GameOp) : GameState :=
  match op with
  | GameOp.join c sx sy =>
      match joinGame s c sx sy with
      | Except.ok s' => s'
      | Except.error _ => s
  | GameOp.move c d =>
      match move s c d with
      | Except.ok s' => s'
      | Except.error _ => s

/-- Deployment state: no player has joined, all mapping slots zero. -/
def initialState : GameState :=
  { positions := fun _ => (0, 0), hasJoined := fun _ => false }

/-- Run a sequence of calls from the deployment state. -/
def run (ops : List GameOp) : GameState :=
  ops.foldl applyOp initialState

/-- Both coordinates of a stored position lie on the board. -/
def inBoard (c : Nat) : Prop := MIN_COORD ≤ c ∧ c ≤ MAX_COORD

/-- Iterate `n` moves in a fixed raw direction from a position. -/
def iterMove (p : Nat × Nat) (d : Nat) : Nat → Nat × Nat
  | 0 => p
  | n + 1 => movePos (iterMove p d n) d

/-- The data-model invariant: every joined player's stored coordinates
lie on the board. -/
def Inv (s : GameState) : Prop :=
  ∀ p, s.hasJoined p = true →
    inBoard (s.positions p).1 ∧ inBoard (s.positions p).2

/-- One FHE library call of the step function, by operation kind: the
observable (unencrypted) control flow of `_applyStep`. -/
inductive FHECall
  | add
  | sub
  | le
  | ge
  | select
deriving DecidableEq, Repr

/-- `FHE.add` instrumented with the call it emits. -/
def tracedAdd (a b : Nat) (log : List FHECall) : Nat × List FHECall :=
  (add32 a b, log ++ [FHECall.add])

/-- `FHE.sub` instrumented with the call it emits. -/
def tracedSub (a b : Nat) (log : List FHECall) : Nat × List FHECall :=
  (sub32 a b, log ++ [FHECall.sub])

/-- `FHE.le` instrumented with the call it emits. -/
def tracedLe (a b : Nat) (log : List FHECall) : Bool × List FHECall :=
  (fheLe a b, log ++ [FHECall.le])

/-- `FHE.ge` instrumented with the call it emits. -/
def tracedGe (a b : Nat) (log : List FHECall) : Bool × List FHECall :=
  (fheGe a b, log ++ [FHECall.ge])

/-- `FHE.select` instrumented with the call it emits. -/
def tracedSelect (cond : Bool) (ifTrue ifFalse : Nat)
    (log : List FHECall) : Nat × List FHECall :=
  (fheSelect cond ifTrue ifFalse, log ++ [FHECall.select])

/-- `_applyStep` instrumented with the sequence of FHE library calls it
performs, in program order. -/
def applyStepTraced (current : Nat) (increment decrement : Bool) :
    Nat × List FHECall :=
  let (incremented, log1) := tracedAdd current 1 []
  let (decremented, log2) := tracedSub current 1 log1
  let (atMin, log3) := tracedLe current MIN_COORD log2
  let (atMax, log4) := tracedGe current MAX_COORD log3
  let (safeIncrement, log5) := tracedSelect atMax current incremented log4
  let (safeDecrement, log6) := tracedSelect atMin current decremented log5
  let (afterIncrement, log7) := tracedSelect increment safeIncrement current log6
  tracedSelect decrement safeDecrement afterIncrement log7

/-! ### Arithmetic helper lemmas -/

theorem le_MAX_lt_M32 {c : Nat} (h : c ≤ MAX_COORD) : c < M32 := by
  unfold MAX_COORD at h
  unfold M32
  omega

theorem add32_eq_of_lt {a b : Nat} (h : a + b < M32) : add32 a b = a + b :=
  Nat.mod_eq_of_lt h

theorem sub32_one_eq {a : Nat} (h1 : 1 ≤ a) (h2 : a < M32) :
    sub32 a 1 = a - 1 := by
  unfold sub32 M32 at *
  omega

/-- Plain-branching characterization of `_applyStep` for any euint32
value of the current coordinate: decrement wins over increment, both are
clamped by the `≤ MIN_COORD` / `≥ MAX_COORD` guards. -/
theorem applyStep_spec (c : Nat) (i d : Bool) (hc : c < M32) :
    applyStep c i d =
      if d then (if c ≤ MIN_COORD then c else c - 1)
      else if i then (if MAX_COORD ≤ c then c else c + 1)
      else c := by
  have hsub : ¬ c ≤ MIN_COORD → sub32 c 1 = c - 1 := fun h =>
    sub32_one_eq (by unfold MIN_COORD at h; omega) hc
  have hadd : ¬ MAX_COORD ≤ c → add32 c 1 = c + 1 := by
    intro h
    apply add32_eq_of_lt
    unfold MAX_COORD at h
    unfold M32
    omega
  simp only [applyStep, fheSelect, fheLe, fheGe, decide_eq_true_eq]
  cases d <;> cases i <;>
    by_cases hmin : c ≤ MIN_COORD <;> by_cases hmax : MAX_COORD ≤ c <;>
    simp [hmin, hmax, hsub, hadd]

theorem applyStep_range {c : Nat} (i d : Bool) (h1 : MIN_COORD ≤ c)
    (h2 : c ≤ MAX_COORD) :
    MIN_COORD ≤ applyStep c i d ∧ applyStep c i d ≤ MAX_COORD := by
  rw [applyStep_spec c i d (le_MAX_lt_M32 h2)]
  simp only [MIN_COORD, MAX_COORD] at h1 h2 ⊢
  cases d <;> cases i <;> (try simp) <;> (try split_ifs) <;> omega

theorem randomCoordinate_range (sample : Nat) :
    MIN_COORD ≤ randomCoordinate sample ∧
      randomCoordinate sample ≤ MAX_COORD := by
  simp only [randomCoordinate, rem32, wrap32, add32, MIN_COORD, MAX_COORD, M32]
  omega

theorem randomCoordinate_eq (sample : Nat) :
    randomCoordinate sample = sample % M32 % MAX_COORD + MIN_COORD := by
  simp only [randomCoordinate, rem32, wrap32, add32, MIN_COORD, MAX_COORD, M32]
  omega

theorem normalize_wrap (d : Nat) :
    normalizeDirection (wrap32 d) = d % DIRECTION_MODULO := by
  unfold normalizeDirection rem32 wrap32 DIRECTION_MODULO M32
  exact Nat.mod_mod_of_dvd d (by omega)

theorem applyStep_none (c : Nat) : applyStep c false false = c := rfl

theorem updateVertical_up (y : Nat) (hy : y < M32) :
    updateVertical y 0 = if MAX_COORD ≤ y then y else y + 1 := by
  rw [show updateVertical y 0 = applyStep y true false from rfl,
    applyStep_spec y true false hy]
  simp

theorem updateVertical_down (y : Nat) (hy : y < M32) :
    updateVertical y 1 = if y ≤ MIN_COORD then y else y - 1 := by
  rw [show updateVertical y 1 = applyStep y false true from rfl,
    applyStep_spec y false true hy]
  simp

theorem updateHorizontal_left (x : Nat) (hx : x < M32) :
    updateHorizontal x 2 = if x ≤ MIN_COORD then x else x - 1 := by
  rw [show updateHorizontal x 2 = applyStep x false true from rfl,
    applyStep_spec x false true hx]
  simp

theorem updateHorizontal_right (x : Nat) (hx : x < M32) :
    updateHorizontal x 3 = if MAX_COORD ≤ x then x else x + 1 := by
  rw [show updateHorizontal x 3 = applyStep x true false from rfl,
    applyStep_spec x true false hx]
  simp

theorem movePos_norm (x y d : Nat) :
    movePos (x, y) d =
      (updateHorizontal x (normalizeDirection (wrap32 d)),
        updateVertical y (normalizeDirection (wrap32 d))) := rfl

/-- Claim C1: for a position with both coordinates in `[1,10]` and a
canonical direction code `d < 4`, the move changes exactly one axis by
exactly 1 — up (0) increments y, down (1) decrements y, left (2)
decrements x, right (3) increments x — except that an increment at
`MAX_COORD` and a decrement at `MIN_COORD` are no-ops. -/
theorem directional_step_correct (x y d : Nat) (hx1 : MIN_COORD ≤ x)
    (hx2 : x ≤ MAX_COORD) (hy1 : MIN_COORD ≤ y) (hy2 : y ≤ MAX_COORD)
    (hd : d < 4) :
    movePos (x, y) d =
      if d = 0 then (x, if y = MAX_COORD then MAX_COORD else y + 1)
      else if d = 1 then (x, if y = MIN_COORD then MIN_COORD else y - 1)
      else if d = 2 then ((if x = MIN_COORD then MIN_COORD else x - 1), y)
      else ((if x = MAX_COORD then MAX_COORD else x + 1), y) := by
  have hxlt := le_MAX_lt_M32 hx2
  have hylt := le_MAX_lt_M32 hy2
  have hnorm : normalizeDirection (wrap32 d) = d := by
    rw [normalize_wrap]
    simp only [DIRECTION_MODULO]
    omega
  rw [movePos_norm, hnorm]
  simp only [MIN_COORD, MAX_COORD] at *
  interval_cases d
  · rw [show updateHorizontal x 0 = x from rfl, updateVertical_up y hylt]
    simp only [MAX_COORD, Prod.mk.injEq]
    norm_num
    split_ifs <;> omega
  · rw [show updateHorizontal x 1 = x from rfl, updateVertical_down y hylt]
    simp only [MIN_COORD, Prod.mk.injEq]
    norm_num
    split_ifs <;> omega
  · rw [updateHorizontal_left x hxlt, show updateVertical y 2 = y from rfl]
    simp only [MIN_COORD, Prod.mk.injEq]
    norm_num
    split_ifs <;> omega
  · rw [updateHorizontal_right x hxlt, show updateVertical y 3 = y from rfl]
    simp only [MAX_COORD, Prod.mk.injEq]
    norm_num
    split_ifs <;> omega

/-- Witness for C1: at position `(5, 10)` a move up leaves the player at
`(5, 10)` — the increment at the top edge is clamped. -/
theorem directional_step_correct_witness :
    (MIN_COORD ≤ 5 ∧ 5 ≤ MAX_COORD ∧ MIN_COORD ≤ 10 ∧ 10 ≤ MAX_COORD ∧
        0 < 4) ∧
      movePos (5, 10) 0 = (5, 10) := by
  refine ⟨by decide, ?_⟩
  have h := directional_step_correct 5 10 0 (by decide) (by decide)
    (by decide) (by decide) (by decide)
  simpa using h

/-! ### The board invariant -/

theorem movePos_def (p : Nat × Nat) (d : Nat) :
    movePos p d =
      (updateHorizontal p.1 (normalizeDirection (wrap32 d)),
        updateVertical p.2 (normalizeDirection (wrap32 d))) := rfl

theorem movePos_inBoard (p : Nat × Nat) (d : Nat) (hx : inBoard p.1)
    (hy : inBoard p.2) :
    inBoard (movePos p d).1 ∧ inBoard (movePos p d).2 := by
  rw [movePos_def]
  exact ⟨applyStep_range _ _ hx.1 hx.2, applyStep_range _ _ hy.1 hy.2⟩

theorem applyOp_inv {s : GameState} (op : GameOp) (h : Inv s) :
    Inv (applyOp s op) := by
  cases op with
  | join c sx sy =>
      simp only [applyOp, joinGame]
      cases hj : s.hasJoined c
      · simp only [hj, Bool.false_eq_true, if_false]
        intro p hp
        simp only at hp ⊢
        by_cases hpc : p = c
        · subst hpc
          simp only [if_pos rfl]
          exact ⟨randomCoordinate_range sx, randomCoordinate_range sy⟩
        · simp only [if_neg hpc] at hp ⊢
          exact h p hp
      · simp only [hj, if_true]
        exact h
  | move c d =>
      simp only [applyOp, move]
      cases hj : s.hasJoined c
      · simp only [hj, Bool.false_eq_true, if_false]
        exact h
      · simp only [hj, if_true]
        intro p hp
        simp only at hp ⊢
        by_cases hpc : p = c
        · subst hpc
          simp only [if_pos rfl]
          exact movePos_inBoard (s.positions p) d (h p hp).1 (h p hp).2
        · simp only [if_neg hpc]
          exact h p hp

theorem foldl_inv (ops : List GameOp) :
    ∀ s : GameState, Inv s → Inv (List.foldl applyOp s ops) := by
  induction ops with
  | nil => intro s hs; exact hs
  | cons o os ih => intro s hs; exact ih _ (applyOp_inv o hs)

theorem initialState_inv : Inv initialState := by
  intro p hp
  simp [initialState] at hp

/-- Claim C2: after any sequence of contract calls from deployment, every
player whose joined flag is true has both stored coordinates within
`[MIN_COORD, MAX_COORD] = [1, 10]`: join establishes the invariant via
`_randomCoordinate` and move preserves it for any direction input. -/
theorem coords_always_in_board (ops : List GameOp) (p : Nat)
    (h : (run ops).hasJoined p = true) :
    inBoard ((run ops).positions p).1 ∧ inBoard ((run ops).positions p).2 :=
  foldl_inv ops initialState initialState_inv p h

/-- Witness for C2: after player 7 joins with samples 123 and 456, player
7 is joined and both stored coordinates are on the board. -/
theorem coords_always_in_board_witness :
    (run [GameOp.join 7 123 456]).hasJoined 7 = true ∧
      (inBoard ((run [GameOp.join 7 123 456]).positions 7).1 ∧
        inBoard ((run [GameOp.join 7 123 456]).positions 7).2) :=
  ⟨by decide, coords_always_in_board [GameOp.join 7 123 456] 7 (by decide)⟩

/-- Claim C3: each operation fails exactly when its precondition is
violated — `joinGame` with `AlreadyJoined` iff the caller has joined,
`move` with `NotJoined` iff the caller has not joined, `getPlayerPosition`
with `UnknownPlayer` iff the queried player has not joined — and a failing
`joinGame` or `move` leaves the storage unchanged. -/
theorem precondition_errors (s : GameState) (c p sx sy d : Nat) :
    (joinGame s c sx sy = Except.error GameError.AlreadyJoined ↔
        s.hasJoined c = true) ∧
      ((∃ s', joinGame s c sx sy = Except.ok s') ↔ s.hasJoined c = false) ∧
      (move s c d = Except.error GameError.NotJoined ↔
        s.hasJoined c = false) ∧
      ((∃ s', move s c d = Except.ok s') ↔ s.hasJoined c = true) ∧
      (getPlayerPosition s p = Except.error GameError.UnknownPlayer ↔
        s.hasJoined p = false) ∧
      ((∃ q, getPlayerPosition s p = Except.ok q) ↔ s.hasJoined p = true) ∧
      (s.hasJoined c = true → applyOp s (GameOp.join c sx sy) = s) ∧
      (s.hasJoined c = false → applyOp s (GameOp.move c d) = s) := by
  cases hj : s.hasJoined c <;> cases hp : s.hasJoined p <;>
    simp [joinGame, move, getPlayerPosition, applyOp, hj, hp]

/-- Witness for C3: in a state where everyone has joined, a repeated join
by player 0 reverts and leaves the storage unchanged. -/
theorem precondition_errors_witness :
    (GameState.mk (fun _ => (3, 4)) (fun _ => true)).hasJoined 0 = true ∧
      applyOp (GameState.mk (fun _ => (3, 4)) (fun _ => true))
          (GameOp.join 0 1 2) =
        GameState.mk (fun _ => (3, 4)) (fun _ => true) :=
  ⟨rfl,
    (precondition_errors (GameState.mk (fun _ => (3, 4)) (fun _ => true))
          0 0 1 2 5).2.2.2.2.2.2.1 rfl⟩

/-- Claim C4: `move` is total in the direction code — any raw input is
normalized modulo 4, so no direction is ever rejected and the result
agrees with the canonical code `d % 4`. -/
theorem move_direction_total (s : GameState) (c d : Nat) :
    move s c d = move s c (d % DIRECTION_MODULO) ∧
      (s.hasJoined c = true → ∃ s', move s c d = Except.ok s') := by
  constructor
  · have hd : normalizeDirection (wrap32 d) =
        normalizeDirection (wrap32 (d % DIRECTION_MODULO)) := by
      rw [normalize_wrap, normalize_wrap]
      simp only [DIRECTION_MODULO]
      omega
    simp only [move, movePos_def, hd]
  · intro hj
    simp [move, hj]

/-- Witness for C4: with player 0 joined at `(5, 5)`, the raw direction 7
is accepted and acts like its canonical code `7 % 4 = 3`. -/
theorem move_direction_total_witness :
    (GameState.mk (fun _ => (5, 5)) (fun _ => true)).hasJoined 0 = true ∧
      move (GameState.mk (fun _ => (5, 5)) (fun _ => true)) 0 7 =
        move (GameState.mk (fun _ => (5, 5)) (fun _ => true)) 0
          (7 % DIRECTION_MODULO) ∧
      ∃ s', move (GameState.mk (fun _ => (5, 5)) (fun _ => true)) 0 7 =
        Except.ok s' :=
  ⟨rfl,
    (move_direction_total (GameState.mk (fun _ => (5, 5)) (fun _ => true))
        0 7).1,
    (move_direction_total (GameState.mk (fun _ => (5, 5)) (fun _ => true))
        0 7).2 rfl⟩

/-- Claim C5: a join by a player who has not joined succeeds; each
starting coordinate is an independent euint32 sample reduced modulo
`MAX_COORD` into `[0, MAX_COORD-1]` and shifted by `MIN_COORD` into the
board range, and afterwards the player's joined flag is true. -/
theorem joinGame_spec (s : GameState) (c sx sy : Nat)
    (h : s.hasJoined c = false) :
    ∃ s', joinGame s c sx sy = Except.ok s' ∧
      s'.hasJoined c = true ∧
      s'.positions c = (randomCoordinate sx, randomCoordinate sy) ∧
      randomCoordinate sx = sx % M32 % MAX_COORD + MIN_COORD ∧
      randomCoordinate sy = sy % M32 % MAX_COORD + MIN_COORD ∧
      inBoard (randomCoordinate sx) ∧ inBoard (randomCoordinate sy) := by
  refine ⟨GameState.mk
      (fun p => if p = c then (randomCoordinate sx, randomCoordinate sy)
        else s.positions p)
      (fun p => if p = c then true else s.hasJoined p),
    ?_, ?_, ?_, randomCoordinate_eq sx, randomCoordinate_eq sy,
    randomCoordinate_range sx, randomCoordinate_range sy⟩
  · simp [joinGame, h]
  · simp
  · simp

/-- Witness for C5: player 0 joining the deployment state with samples 11
and 25 succeeds with a position on the board. -/
theorem joinGame_spec_witness :
    initialState.hasJoined 0 = false ∧
      ∃ s', joinGame initialState 0 11 25 = Except.ok s' ∧
        s'.hasJoined 0 = true ∧
        s'.positions 0 = (randomCoordinate 11, randomCoordinate 25) ∧
        randomCoordinate 11 = 11 % M32 % MAX_COORD + MIN_COORD ∧
        randomCoordinate 25 = 25 % M32 % MAX_COORD + MIN_COORD ∧
        inBoard (randomCoordinate 11) ∧ inBoard (randomCoordinate 25) :=
  ⟨rfl, joinGame_spec initialState 0 11 25 rfl⟩

/-! ### Single moves in each direction, and iterated moves -/

theorem movePos_up (x y : Nat) (hy : y < M32) :
    movePos (x, y) 0 = (x, if MAX_COORD ≤ y then y else y + 1) := by
  have h0 : normalizeDirection (wrap32 0) = 0 := rfl
  rw [movePos_def, h0]
  rw [show updateHorizontal x 0 = x from rfl, updateVertical_up y hy]

theorem movePos_down (x y : Nat) (hy : y < M32) :
    movePos (x, y) 1 = (x, if y ≤ MIN_COORD then y else y - 1) := by
  have h1 : normalizeDirection (wrap32 1) = 1 := rfl
  rw [movePos_def, h1]
  rw [show updateHorizontal x 1 = x from rfl, updateVertical_down y hy]

theorem movePos_left (x y : Nat) (hx : x < M32) :
    movePos (x, y) 2 = ((if x ≤ MIN_COORD then x else x - 1), y) := by
  have h2 : normalizeDirection (wrap32 2) = 2 := rfl
  rw [movePos_def, h2]
  rw [updateHorizontal_left x hx, show updateVertical y 2 = y from rfl]

theorem movePos_right (x y : Nat) (hx : x < M32) :
    movePos (x, y) 3 = ((if MAX_COORD ≤ x then x else x + 1), y) := by
  have h3 : normalizeDirection (wrap32 3) = 3 := rfl
  rw [movePos_def, h3]
  rw [updateHorizontal_right x hx, show updateVertical y 3 = y from rfl]

theorem iterMove_succ (p : Nat × Nat) (d n : Nat) :
    iterMove p d (n + 1) = movePos (iterMove p d n) d := rfl

theorem iterMove_fixed {p : Nat × Nat} {d : Nat} (h : movePos p d = p) :
    ∀ n, iterMove p d n = p := by
  intro n
  induction n with
  | zero => rfl
  | succ n ih => rw [iterMove_succ, ih, h]

theorem iter_up_eq (x y n : Nat) (hy1 : 1 ≤ y) (hy2 : y ≤ 10) :
    iterMove (x, y) 0 n = (x, min (y + n) 10) := by
  induction n with
  | zero =>
      simp only [iterMove, Prod.mk.injEq, true_and]
      omega
  | succ n ih =>
      rw [iterMove_succ, ih, movePos_up x (min (y + n) 10)
        (by unfold M32; omega)]
      simp only [MAX_COORD, Prod.mk.injEq, true_and]
      split_ifs <;> omega

theorem iter_left_eq (x y n : Nat) (hx1 : 1 ≤ x) (hx2 : x ≤ 10) :
    iterMove (x, y) 2 n = (max (x - n) 1, y) := by
  induction n with
  | zero =>
      simp only [iterMove, Prod.mk.injEq, and_true]
      omega
  | succ n ih =>
      rw [iterMove_succ, ih, movePos_left (max (x - n) 1) y
        (by unfold M32; omega)]
      simp only [MIN_COORD, Prod.mk.injEq, and_true]
      split_ifs <;> omega

/-- Claim C6: a coordinate at its boundary is a fixed point of every
further move in the same boundary-pushing direction, and from any board
position 15 consecutive up moves pin `y` at `MAX_COORD` while preserving
`x`, after which 15 left moves pin the player at the top-left corner
`(MIN_COORD, MAX_COORD)`. -/
theorem clamp_idempotent_scenario (x0 y0 : Nat) (hx1 : MIN_COORD ≤ x0)
    (hx2 : x0 ≤ MAX_COORD) (hy1 : MIN_COORD ≤ y0) (hy2 : y0 ≤ MAX_COORD) :
    (∀ x n, iterMove (x, MAX_COORD) 0 n = (x, MAX_COORD)) ∧
      (∀ x n, iterMove (x, MIN_COORD) 1 n = (x, MIN_COORD)) ∧
      (∀ y n, iterMove (MIN_COORD, y) 2 n = (MIN_COORD, y)) ∧
      (∀ y n, iterMove (MAX_COORD, y) 3 n = (MAX_COORD, y)) ∧
      iterMove (x0, y0) 0 15 = (x0, MAX_COORD) ∧
      iterMove (iterMove (x0, y0) 0 15) 2 15 = (MIN_COORD, MAX_COORD) := by
  simp only [MIN_COORD, MAX_COORD] at *
  have hup : ∀ x n, iterMove (x, 10) 0 n = (x, 10) := fun x n =>
    iterMove_fixed (by rw [movePos_up x 10 (by unfold M32; omega)]; simp [MAX_COORD]) n
  have hdown : ∀ x n, iterMove (x, 1) 1 n = (x, 1) := fun x n =>
    iterMove_fixed (by rw [movePos_down x 1 (by unfold M32; omega)]; simp [MIN_COORD]) n
  have hleft : ∀ y n, iterMove (1, y) 2 n = (1, y) := fun y n =>
    iterMove_fixed (by rw [movePos_left 1 y (by unfold M32; omega)]; simp [MIN_COORD]) n
  have hright : ∀ y n, iterMove (10, y) 3 n = (10, y) := fun y n =>
    iterMove_fixed (by rw [movePos_right 10 y (by unfold M32; omega)]; simp [MAX_COORD]) n
  have h15up : iterMove (x0, y0) 0 15 = (x0, 10) := by
    rw [iter_up_eq x0 y0 15 hy1 hy2]
    simp only [Prod.mk.injEq, true_and]
    omega
  refine ⟨hup, hdown, hleft, hright, h15up, ?_⟩
  rw [h15up, iter_left_eq x0 10 15 hx1 hx2]
  simp only [Prod.mk.injEq, and_true]
  omega

/-- Witness for C6: starting from `(3, 2)`, 15 up moves then 15 left
moves pin the player at `(1, 10)`. -/
theorem clamp_idempotent_scenario_witness :
    (MIN_COORD ≤ 3 ∧ 3 ≤ MAX_COORD ∧ MIN_COORD ≤ 2 ∧ 2 ≤ MAX_COORD) ∧
      iterMove (3, 2) 0 15 = (3, MAX_COORD) ∧
      iterMove (iterMove (3, 2) 0 15) 2 15 = (MIN_COORD, MAX_COORD) := by
  have h := clamp_idempotent_scenario 3 2 (by decide) (by decide)
    (by decide) (by decide)
  exact ⟨by decide, h.2.2.2.2.1, h.2.2.2.2.2⟩

/-- Claim C7: a join or move performed by player `p` — whether it succeeds
or reverts — leaves any distinct player `q`'s joined flag and stored
coordinate pair unchanged. -/
theorem frame_other_players (s : GameState) (p q sx sy d : Nat)
    (hpq : q ≠ p) :
    (applyOp s (GameOp.join p sx sy)).hasJoined q = s.hasJoined q ∧
      (applyOp s (GameOp.join p sx sy)).positions q = s.positions q ∧
      (applyOp s (GameOp.move p d)).hasJoined q = s.hasJoined q ∧
      (applyOp s (GameOp.move p d)).positions q = s.positions q := by
  cases hj : s.hasJoined p <;>
    simp [applyOp, joinGame, move, hj, hpq]

/-- Witness for C7: player 0 joining the deployment state does not touch
player 1's record. -/
theorem frame_other_players_witness :
    (1 ≠ 0) ∧
      (applyOp initialState (GameOp.join 0 2 3)).hasJoined 1 =
        initialState.hasJoined 1 ∧
      (applyOp initialState (GameOp.join 0 2 3)).positions 1 =
        initialState.positions 1 ∧
      (applyOp initialState (GameOp.move 0 4)).hasJoined 1 =
        initialState.hasJoined 1 ∧
      (applyOp initialState (GameOp.move 0 4)).positions 1 =
        initialState.positions 1 :=
  ⟨by decide, frame_other_players initialState 0 1 2 3 4 (by decide)⟩

/-- Counterexample to claim C8 as stated: the operand 0 lies inside the
claimed bound `[0, 10]`, yet the subtract-by-1 intermediate that
`_applyStep` computes unconditionally (`sub32` with subtrahend 1) wraps
modulo `2^32` to `2^32 - 1` there — so the bound `[0, 10]` does not rule
out wrap-around. -/
theorem step_sub_wraps_in_claimed_bound :
    ((0 : Nat) ≤ 0 ∧ (0 : Nat) ≤ 10) ∧
      sub32 0 1 = M32 - 1 ∧
      ¬ ((sub32 0 1 : Int) = (0 : Int) - 1) := by
  refine ⟨by decide, by decide, by decide⟩

/-- Claim C8 amended: the operands of the add-by-1 and subtract-by-1 in
`_applyStep` are bounded to `[MIN_COORD, MAX_COORD] = [1, 10]` (the
stored-coordinate invariant), and under that bound neither intermediate
wraps modulo `2^32`: both agree with exact integer arithmetic, and the
modulo reductions produce non-negative remainders below their modulus. -/
theorem step_arithmetic_no_wrap (current : Nat) (h1 : MIN_COORD ≤ current)
    (h2 : current ≤ MAX_COORD) :
    add32 current 1 = current + 1 ∧
      current + 1 < M32 ∧
      sub32 current 1 = current - 1 ∧
      (sub32 current 1 : Int) = (current : Int) - 1 ∧
      rem32 (wrap32 current) MAX_COORD < MAX_COORD := by
  simp only [MIN_COORD, MAX_COORD] at h1 h2
  have hlt : current < M32 := by unfold M32; omega
  have hadd : add32 current 1 = current + 1 :=
    add32_eq_of_lt (by unfold M32; omega)
  have hsub : sub32 current 1 = current - 1 := sub32_one_eq h1 hlt
  refine ⟨hadd, by unfold M32; omega, hsub, ?_, ?_⟩
  · rw [hsub]
    omega
  · simp only [rem32, wrap32, MAX_COORD]
    omega

/-- Witness for C8 (amended): at the boundary operand 1 the subtract-by-1
yields exactly 0 with no wrap. -/
theorem step_arithmetic_no_wrap_witness :
    (MIN_COORD ≤ 1 ∧ 1 ≤ MAX_COORD) ∧
      add32 1 1 = 2 ∧ sub32 1 1 = 0 :=
  ⟨by decide, (step_arithmetic_no_wrap 1 (by decide) (by decide)).1,
    (step_arithmetic_no_wrap 1 (by decide) (by decide)).2.2.1⟩

/-- Claim C9: the step computation's control flow is independent of the
secret coordinate and secret direction flags: the instrumented step
performs the identical sequence of FHE calls for all inputs — both
candidate updates are computed unconditionally and the result is chosen
only by oblivious `select` calls — while returning exactly the value of
`_applyStep`. -/
theorem applyStep_oblivious :
    (∀ current increment decrement,
        (applyStepTraced current increment decrement).1 =
          applyStep current increment decrement) ∧
      (∀ c1 i1 d1 c2 i2 d2,
        (applyStepTraced c1 i1 d1).2 = (applyStepTraced c2 i2 d2).2) := by
  exact ⟨fun c i d => rfl, fun c1 i1 d1 c2 i2 d2 => rfl⟩

/-- Claim C10: for every euint32 current value — including values outside
`[1,10]` — and every flag combination, the step's result differs from
`current` by at most 1 in exact integer terms (so a wrapped candidate is
never returned); a decrement at `current ≤ MIN_COORD` and an increment at
`current ≥ MAX_COORD` return `current` unchanged, even though the wrapped
candidates `sub32 current 1` at 0 and `add32 current 1` at `2^32 - 1` are
computed. -/
theorem step_never_returns_wrapped (current : Nat) (i d : Bool)
    (h : current < M32) :
    applyStep current i d ≤ current + 1 ∧
      current ≤ applyStep current i d + 1 ∧
      (current ≤ MIN_COORD → d = true → applyStep current i d = current) ∧
      (MAX_COORD ≤ current → i = true → d = false →
        applyStep current i d = current) ∧
      (current = 0 → sub32 current 1 = M32 - 1) ∧
      (current = M32 - 1 → add32 current 1 = 0) := by
  have hspec := applyStep_spec current i d h
  refine ⟨?_, ?_, ?_, ?_, ?_, ?_⟩
  · rw [hspec]
    cases d <;> cases i <;> simp [MIN_COORD, MAX_COORD] <;>
      (try split_ifs) <;> omega
  · rw [hspec]
    cases d <;> cases i <;> simp [MIN_COORD, MAX_COORD] <;>
      (try split_ifs) <;> omega
  · intro hmin hd
    subst hd
    rw [hspec]
    simp [hmin]
  · intro hmax hi hd
    subst hi
    subst hd
    rw [hspec]
    simp [hmax]
  · intro h0
    subst h0
    decide
  · intro hM
    subst hM
    decide

/-- Witness for C10: at the out-of-invariant value 0 a decrement returns
0 — the wrapped candidate `2^32 - 1` is computed but not selected. -/
theorem step_never_returns_wrapped_witness :
    (0 : Nat) < M32 ∧ applyStep 0 false true = 0 := by
  have h := step_never_returns_wrapped 0 false true (by decide)
  exact ⟨by decide, h.2.2.1 (by decide) rfl⟩

end CryptoVeil
